import Mathlib

/-!
Verification development for the wikicube repository analysis pipeline.

The TypeScript sources are shallowly embedded: JavaScript strings are
modelled as their character sequences (an abbreviation Str for List Char),
and the external tiktoken tokenizer (an opaque external library; the code
only relies on encode, decode and token counts) is modelled as one token
per character, so encode is the character list, decode is concatenation,
and countTokens is the length.  All definitions are direct translations of
the corresponding TypeScript functions, noted at each definition.
-/

namespace Wikicube

/-- A JavaScript string, modelled as its sequence of characters. -/
abbrev Str := List Char

/-- Model of String.prototype.trim: drop whitespace from both ends. -/
def trimStr (s : Str) : Str :=
  ((s.dropWhile Char.isWhitespace).reverse.dropWhile Char.isWhitespace).reverse

/-- Model of str.split("\n"): split the character list at every newline
character, keeping empty pieces, as the JavaScript split does. -/
def splitLines : Str → List Str
  | [] => [[]]
  | c :: rest =>
    let r := splitLines rest
    if c = '\n' then [] :: r
    else
      match r with
      | [] => [[c]]
      | l :: ls => (c :: l) :: ls

/-- Model of arr.join("\n") on a list of lines. -/
def joinLines (ls : List Str) : Str :=
  List.intercalate ['\n'] ls

/-- Grouping a list into consecutive slices of k elements, as the
JavaScript pattern "for (i = 0; i < n; i += k) out.push(a.slice(i, i + k))"
produces.  The k = 0 case never arises in the sources (all call sites pass
a positive constant) and is given the degenerate value with a single slice. -/
def toBatches : Nat → List α → List (List α)
  | _, [] => []
  | 0, l => [l]
  | k + 1, a :: rest =>
    ((a :: rest).take (k + 1)) :: toBatches (k + 1) (rest.drop k)
termination_by _ l => l.length
decreasing_by
  simp only [List.length_cons, List.length_drop]
  omega

/-- Token budget per chunk (chunker source, MAX_CHUNK_TOKENS = 1024). -/
def MAX_CHUNK_TOKENS : Nat := 1024

/-- Model of countTokens: with one token per character this is the length. -/
def countTokens (s : Str) : Nat := s.length

/-- Model of splitByTokenLimit(text, limit): if the text is within the
limit return it whole, otherwise slice the token (character) list into
consecutive pieces of at most limit tokens and decode each piece. -/
def splitByTokenLimit (text : Str) (limit : Nat) : List Str :=
  if countTokens text ≤ limit then [text] else toBatches limit text

/-! ### Code chunker (chunker source: chunkCodeFile and helpers)

The boundary-line test and the symbol extractor are fixed regular-expression
tables in the source.  Both are taken as parameters of the embedded chunker
(every general theorem below holds for an arbitrary choice), and concrete
executable models of the tables, faithful on every line appearing in the
concrete inputs of this file, are provided for evaluation. -/

/-- Model of str.startsWith(p). -/
def startsWithL (p : String) (s : Str) : Bool :=
  p.data.isPrefixOf s

/-- Model of str.includes(p). -/
def containsStr (p : String) (s : Str) : Bool :=
  decide (p.data <:+: s)

/-- One line of the import-block test of extractImportBlock: the trimmed
line continues the leading import/comment/blank block.  The alternatives
appear in the order of the source. -/
def isImportish (line : Str) : Bool :=
  let t := trimStr line
  startsWithL "import " t ||
  startsWithL "from " t ||
  startsWithL "require(" t ||
  (startsWithL "const " t && containsStr "require(" t) ||
  startsWithL "use " t ||
  startsWithL "alias " t ||
  startsWithL "package " t ||
  startsWithL "#include " t ||
  startsWithL "#pragma " t ||
  startsWithL "using " t ||
  startsWithL "include " t ||
  startsWithL "require " t ||
  startsWithL "require_relative " t ||
  startsWithL "export '" t ||
  decide (t = []) ||
  startsWithL "//" t ||
  startsWithL "#" t ||
  startsWithL "/*" t ||
  startsWithL "*" t

/-- Model of extractImportBlock(lines): collect leading import-like lines
(the loop breaks at the first other line), join and trim. -/
def extractImportBlock (lines : List Str) : Str :=
  trimStr (joinLines (lines.takeWhile isImportish))

/-- The header used for a chunk that is itself the import block. -/
def fileOnlyHeader (fp : Str) : Str :=
  ("// File: ").data ++ fp ++ ("\n\n").data

/-- Model of importHeader in chunkCodeFile: file path plus the import
block when one exists. -/
def importHeaderOf (fp ib : Str) : Str :=
  if ib = [] then fileOnlyHeader fp
  else ("// File: ").data ++ fp ++ ("\n// Imports:\n").data ++ ib ++ ("\n\n").data

/-- A chunk emitted by the code chunker (interface CodeChunk). -/
structure CodeChunk where
  content : Str
  filePath : Str
  startLine : Nat
  endLine : Nat
  symbolName : Option Str
  deriving DecidableEq, Repr

/-- One flushed logical unit of the code chunker, recording the chosen
context header, the raw (joined and trimmed) block text, and the
budget-split bodies the flush emits chunks for. -/
structure CUnit where
  pfx : Str
  raw : Str
  bodies : List Str
  startLine : Nat
  endLine : Nat
  symbolName : Option Str
  deriving DecidableEq, Repr

/-- The mutable state of chunkCodeFile between lines. -/
structure CState where
  units : List CUnit
  currentLines : List Str
  currentStart : Nat
  currentSymbol : Option Str
  deriving DecidableEq, Repr

/-- Model of the inner flush() of chunkCodeFile.  An empty pending block,
or a block whose joined text trims to nothing, is left untouched (the
source returns early without clearing the pending lines); otherwise the
block is emitted as one unit with the import-only or full header, its raw
text split to fit the remaining budget (floored at 64 tokens). -/
def flushUnit (fp ib ih : Str) (st : CState) : CState :=
  if st.currentLines = [] then st
  else
    let raw := trimStr (joinLines st.currentLines)
    if raw = [] then st
    else
      let isImportOnly :=
        st.currentStart ≤ (splitLines ib).length + 1 ∧ st.currentSymbol = none
      let pfx := if isImportOnly then fileOnlyHeader fp else ih
      let bodyLimit := max 64 (MAX_CHUNK_TOKENS - countTokens pfx)
      { units := st.units ++
          [⟨pfx, raw, splitByTokenLimit raw bodyLimit, st.currentStart,
            st.currentStart + st.currentLines.length - 1, st.currentSymbol⟩],
        currentLines := [],
        currentStart := st.currentStart,
        currentSymbol := none }

/-- Model of one iteration of the line loop of chunkCodeFile, for the
0-based index i and the line.  isB is the boundary-pattern table and exS
the symbol extractor. -/
def chunkStep (isB : Str → Bool) (exS : Str → Option Str) (fp ib ih : Str)
    (st : CState) (p : Nat × Str) : CState :=
  let trimmed := trimStr p.2
  let st1 :=
    if isB trimmed && !st.currentLines.isEmpty then
      let f := flushUnit fp ib ih st
      { f with currentStart := p.1 + 1, currentSymbol := exS trimmed }
    else st
  let st2 := { st1 with currentLines := st1.currentLines ++ [p.2] }
  if st2.currentLines.length == 1 && isB trimmed then
    { st2 with currentSymbol := exS trimmed }
  else st2

/-- The logical units chunkCodeFile flushes, in order: run the line loop
from the initial state and flush the final pending block. -/
def chunkCodeFileUnits (isB : Str → Bool) (exS : Str → Option Str)
    (fp content : Str) : List CUnit :=
  if trimStr content = [] then []
  else
    let lines := splitLines content
    let ib := extractImportBlock lines
    let ih := importHeaderOf fp ib
    (flushUnit fp ib ih
      (lines.enum.foldl (chunkStep isB exS fp ib ih) ⟨[], [], 1, none⟩)).units

/-- Model of chunkCodeFile, parameterized by the two pattern tables: every
unit contributes one chunk per budget-split body, the chunk content being
the unit header followed by the body. -/
def chunkCodeFileP (isB : Str → Bool) (exS : Str → Option Str)
    (fp content : Str) : List CodeChunk :=
  (chunkCodeFileUnits isB exS fp content).flatMap fun u =>
    u.bodies.map fun b =>
      ⟨u.pfx ++ b, fp, u.startLine, u.endLine, u.symbolName⟩

/-- The emitted passage bodies (chunk contents with the context header
stripped), in emission order. -/
def codeBodiesP (isB : Str → Bool) (exS : Str → Option Str)
    (fp content : Str) : List Str :=
  (chunkCodeFileUnits isB exS fp content).flatMap (·.bodies)

/-- Model of the character class \w. -/
def isWordChar (c : Char) : Bool :=
  c.isAlphanum || c = '_'

/-- If the characters start with the keyword followed by at least one
whitespace character, consume the keyword and the whitespace run;
otherwise return the input unchanged (an optional regex group kw\s+ ). -/
def tryKeyword (kw : String) (cs : Str) : Str :=
  if kw.data.isPrefixOf cs then
    match cs.drop kw.length with
    | c :: rest =>
      if c.isWhitespace then (c :: rest).dropWhile Char.isWhitespace else cs
    | [] => cs
  else cs

/-- Matches the tail function\s+\w of the first boundary pattern. -/
def funBoundaryTail (cs : Str) : Bool :=
  if ("function").data.isPrefixOf cs then
    match cs.drop 8 with
    | c :: rest =>
      c.isWhitespace &&
        (match (c :: rest).dropWhile Char.isWhitespace with
         | d :: _ => isWordChar d
         | [] => false)
    | [] => false
  else false

/-- Executable model of the BOUNDARY_PATTERNS table of the source,
restricted to its first pattern (optionally export / default / async
prefixed JavaScript function declarations).  Every concrete input used in
this file contains no line matched by any other pattern of the table, and
all general theorems are stated for an arbitrary boundary predicate. -/
def jsIsBoundaryLine (cs : Str) : Bool :=
  funBoundaryTail (tryKeyword "async" (tryKeyword "default" (tryKeyword "export" cs)))

/-- The longest \w+ run at the front. -/
def takeWord (cs : Str) : Str :=
  cs.takeWhile isWordChar

/-- Unanchored scan for the function keyword followed by \s+(\w+),
returning the captured word. -/
def findFunSymbol : Str → Option Str
  | [] => none
  | c :: rest =>
    if ("function").data.isPrefixOf (c :: rest) then
      match (c :: rest).drop 8 with
      | d :: ds =>
        if d.isWhitespace then
          let w := takeWord ((d :: ds).dropWhile Char.isWhitespace)
          if w ≠ [] then some w else findFunSymbol rest
        else findFunSymbol rest
      | [] => findFunSymbol rest
    else findFunSymbol rest

/-- Executable model of extractSymbolName of the source, restricted to
the function keyword of its first alternation (the concrete inputs of
this file exercise no other keyword, and the general theorems are stated
for an arbitrary extractor). -/
def jsExtractSymbolName (cs : Str) : Option Str :=
  findFunSymbol cs

/-- chunkCodeFile with the concrete pattern-table models. -/
def chunkCodeFile (fp content : Str) : List CodeChunk :=
  chunkCodeFileP jsIsBoundaryLine jsExtractSymbolName fp content

/-- The header-stripped bodies of chunkCodeFile with the concrete
pattern-table models. -/
def codeBodies (fp content : Str) : List Str :=
  codeBodiesP jsIsBoundaryLine jsExtractSymbolName fp content

/-! ### Document (wiki) chunker and overview chunker (chunker source:
chunkWikiContent, chunkOverview) -/

/-- Group the lines of a markdown text into sections: a new section starts
at every line that begins with the characters of a level-two heading
marker.  Models the lookahead split of the source. -/
def groupSections : List Str → List (List Str)
  | [] => []
  | [l] => [[l]]
  | l :: l2 :: ls =>
    match groupSections (l2 :: ls) with
    | [] => [[l]]
    | g :: gs =>
      if startsWithL "## " l2 then [l] :: g :: gs else (l :: g) :: gs

/-- Render grouped section lines back to section texts: every section but
the last regains the newline that separated it from its successor, so the
sections concatenate to the original text (as the JavaScript
split-on-lookahead does). -/
def renderSections : List (List Str) → List Str
  | [] => []
  | [g] => [joinLines g]
  | g :: g2 :: gs => (joinLines g ++ ['\n']) :: renderSections (g2 :: gs)

/-- Model of markdownContent.split on the multiline lookahead of a
level-two heading. -/
def splitSections (s : Str) : List Str :=
  renderSections (groupSections (splitLines s))

/-- Match of one line against the heading pattern of the source (two hash
marks, at least one whitespace character, then a nonempty remainder), with
the capture trimmed.  Trimming the capture equals trimming the whole
remainder after the hash marks. -/
def headingLine (l : Str) : Option Str :=
  if startsWithL "##" l then
    match l.drop 2 with
    | c :: rest =>
      if c.isWhitespace ∧ rest ≠ [] then some (trimStr (c :: rest)) else none
    | [] => none
  else none

/-- Model of the multiline heading match of the source: the first line of
the section that matches the heading pattern, trimmed. -/
def headingOf (sec : Str) : Option Str :=
  (splitLines sec).findSome? headingLine

/-- A chunk emitted by the wiki chunker (interface WikiChunk). -/
structure WikiChunk where
  content : Str
  featureTitle : Str
  sectionHeading : Option Str
  deriving DecidableEq, Repr

/-- The summary chunk header of chunkWikiContent. -/
def summaryHeaderOf (title : Str) : Str :=
  ("# ").data ++ title ++ ("\n\n").data

/-- The per-section context header of chunkWikiContent; the section label
is added only for a non-null, nonempty (truthy) heading. -/
def sectionHeaderOf (title : Str) (heading : Option Str) : Str :=
  ("[Feature: ").data ++ title ++ ("]").data ++
    (match heading with
     | some h => if h ≠ [] then (" [Section: ").data ++ h ++ ("]").data else []
     | none => []) ++ ("\n\n").data

/-- The budget-split bodies of one nonempty section of chunkWikiContent. -/
def sectionBodiesOf (title sec : Str) : List Str :=
  splitByTokenLimit (trimStr sec)
    (max 64 (MAX_CHUNK_TOKENS - countTokens (sectionHeaderOf title (headingOf sec))))

/-- Model of chunkWikiContent: the always-emitted summary chunks followed
by the chunks of every nonempty section of the markdown body. -/
def chunkWikiContent (featureTitle featureSummary markdownContent : Str) :
    List WikiChunk :=
  let sp := summaryHeaderOf featureTitle
  (splitByTokenLimit featureSummary (max 64 (MAX_CHUNK_TOKENS - countTokens sp))).map
      (fun b => (⟨sp ++ b, featureTitle, none⟩ : WikiChunk)) ++
    (splitSections markdownContent).flatMap fun sec =>
      if trimStr sec = [] then []
      else
        (sectionBodiesOf featureTitle sec).map fun b =>
          ⟨sectionHeaderOf featureTitle (headingOf sec) ++ b, featureTitle,
            headingOf sec⟩

/-- The header-stripped bodies of chunkWikiContent in emission order. -/
def wikiBodies (featureTitle featureSummary markdownContent : Str) : List Str :=
  splitByTokenLimit featureSummary
      (max 64 (MAX_CHUNK_TOKENS - countTokens (summaryHeaderOf featureTitle))) ++
    (splitSections markdownContent).flatMap fun sec =>
      if trimStr sec = [] then [] else sectionBodiesOf featureTitle sec

/-- Model of chunkOverview: split the overview at level-two headings and
budget-split every nonempty section with the default limit. -/
def chunkOverview (overview : Str) : List Str :=
  (splitSections overview).flatMap fun sec =>
    if trimStr sec = [] then []
    else splitByTokenLimit (trimStr sec) MAX_CHUNK_TOKENS

/-- Well-formedness of a flushed unit: its bodies are the budget split of
its raw text for its own header, and its raw text is nonempty. -/
def UnitWF (u : CUnit) : Prop :=
  u.bodies = splitByTokenLimit u.raw (max 64 (MAX_CHUNK_TOKENS - countTokens u.pfx)) ∧
    u.raw ≠ []

/-! ### Bounded concurrency batch runner (batchOps source: batchAll)

batchAll(items, fn, concurrency) pre-sizes a results array, keeps a shared
cursor nextIndex, and starts min(concurrency, items.length) workers, each
looping: while the cursor is below the length, atomically claim the index
(the post-increment runs between awaits, so it is atomic in the
single-threaded event loop) and write the awaited handler value into the
claimed slot.  The interleaving of workers is modelled as a step relation;
f i stands for the awaited value of fn(items[i], i). -/

/-- The phase of one batchAll worker: about to re-check the loop
condition, or awaiting the handler for the index it has claimed. -/
inductive WStat
  | idle : WStat
  | running (i : Nat) : WStat
  deriving DecidableEq, Repr

/-- The shared state of batchAll: the cursor, the pre-sized results array
(none is an unwritten slot, JavaScript undefined), and the worker pool. -/
structure BatchState (β : Type) where
  nextIndex : Nat
  results : List (Option β)
  workers : List WStat
  deriving DecidableEq, Repr

/-- The state of batchAll(items, fn, K) just after spawning, with
N = items.length: cursor at zero, N empty slots, min K N idle workers.
For N = 0 the source returns the empty array at once; the initial state is
then already terminal with empty results, matching it. -/
def batchInit (β : Type) (N K : Nat) : BatchState β :=
  ⟨0, List.replicate N none, List.replicate (min K N) WStat.idle⟩

/-- One scheduler step of the worker pool: an idle worker passes the loop
check and claims the cursor index, an idle worker fails the check and
leaves the pool (its promise resolves), or a worker awaiting index i
receives the handler value and writes slot i, becoming idle again.
Nothing constrains which worker moves, so completion order is free. -/
inductive BatchStep (N : Nat) (f : Nat → β) : BatchState β → BatchState β → Prop
  | claim (s : BatchState β) (w : Nat)
      (hw : s.workers.get? w = some WStat.idle) (hn : s.nextIndex < N) :
      BatchStep N f s
        ⟨s.nextIndex + 1, s.results,
          s.workers.set w (WStat.running s.nextIndex)⟩
  | exit (s : BatchState β) (w : Nat)
      (hw : s.workers.get? w = some WStat.idle) (hn : N ≤ s.nextIndex) :
      BatchStep N f s ⟨s.nextIndex, s.results, s.workers.eraseIdx w⟩
  | complete (s : BatchState β) (w : Nat) (i : Nat)
      (hw : s.workers.get? w = some (WStat.running i)) :
      BatchStep N f s
        ⟨s.nextIndex, s.results.set i (some (f i)),
          s.workers.set w WStat.idle⟩

/-- The inductive invariant of the batchAll worker pool: the results array
keeps its size; the cursor never passes the length; every claimed index is
either still in flight with some worker or already holds its handler
value; every unclaimed slot is still unwritten; in-flight indices are
below the cursor and held by at most one worker (no index is claimed
twice); and the pool only empties once the cursor has passed the length. -/
structure BatchInv (N : Nat) (f : Nat → β) (s : BatchState β) : Prop where
  hlen : s.results.length = N
  hnn : s.nextIndex ≤ N
  hfill : ∀ j, j < s.nextIndex →
    WStat.running j ∈ s.workers ∨ s.results.get? j = some (some (f j))
  hbey : ∀ j, s.nextIndex ≤ j → j < N → s.results.get? j = some none
  hrun : ∀ j, WStat.running j ∈ s.workers → j < s.nextIndex
  hcnt : ∀ j, s.workers.count (WStat.running j) ≤ 1
  hterm : s.workers = [] → N ≤ s.nextIndex

/-! ### Pipeline data model (types source), orchestrator (analyzer,
contextGatherer, featureIdentifier, pageGenerator, embedder sources)

The pipeline performs its external calls through collaborators (GitHub
fetches, the text-generation service, the store); their outcomes are
parameters of the model: an Except value for a call whose failure is
fatal, and a per-feature Option for the isolated per-feature step.  The
per-feature concurrency runs through batchAll; by the ordering theorem its
results arrive in input order whatever the interleaving, so the model runs
the features sequentially. -/

/-- The wiki status state machine (types source, WikiStatus). -/
inductive WikiStatus
  | pending
  | fetchingTree
  | identifyingFeatures
  | generatingPages
  | embedding
  | done
  | error
  deriving DecidableEq, Repr

/-- An LLM-identified feature (types source, IdentifiedFeature). -/
structure IdentifiedFeature where
  id : Str
  title : Str
  summary : Str
  relevantFiles : List Str
  deriving DecidableEq, Repr

/-- A persisted feature record (types source, Feature).  The entry_points,
citations and db-generated id fields play no part in any claim and are
omitted. -/
structure Feature where
  wiki_id : Str
  slug : Str
  title : Str
  summary : Str
  markdown_content : Str
  sort_order : Nat
  deriving DecidableEq, Repr

/-- A progress event (types source, AnalysisEvent). -/
inductive AnalysisEvent
  | status (status : WikiStatus) (message : Str)
  | featuresList (features : List Str)
  | featureStarted (featureTitle : Str)
  | featureDone (featureTitle : Str)
  | done (wikiId : Str)
  | error (message : Str)
  deriving DecidableEq, Repr

/-- Cap on features processed per run (featureIdentifier source,
MAX_FEATURES). -/
def MAX_FEATURES : Nat := 10

/-- Model of fetchFilesAndGeneratePage (pageGenerator source): gen models
the combined outcome of the file fetch, the page generation call, and
insertFeature for the given feature at the given order; some f is the
persisted Feature record on success, none a throw at any of the steps
(in which case nothing was persisted for the feature).  Emits
feature_started, then feature_done with the plain title on success and
with the title suffixed " (partial)" on failure, returning null. -/
def fetchFilesAndGeneratePage (gen : IdentifiedFeature → Nat → Option Feature)
    (identified : IdentifiedFeature) (order : Nat) :
    Option Feature × List AnalysisEvent :=
  match gen identified order with
  | some feature =>
    (some feature,
      [AnalysisEvent.featureStarted identified.title,
       AnalysisEvent.featureDone identified.title])
  | none =>
    (none,
      [AnalysisEvent.featureStarted identified.title,
       AnalysisEvent.featureDone (identified.title ++ (" (partial)").data)])

/-- Model of generateAllPages (pageGenerator source): run the per-feature
step through batchAll with the list index as order, drop the null results
of failed features, and return the persisted records in input order with
the emitted events (concatenated per feature; their interleaving across
concurrent features does not matter to any claim). -/
def generateAllPages (gen : IdentifiedFeature → Nat → Option Feature)
    (identifiedFeatures : List IdentifiedFeature) :
    List Feature × List AnalysisEvent :=
  let results :=
    identifiedFeatures.enum.map fun p => fetchFilesAndGeneratePage gen p.2 p.1
  (results.filterMap Prod.fst, (results.map Prod.snd).flatten)

/-- The observable outcome of one pipeline run: the persisted status
writes in order (updateWikiStatus calls, plus the pending status written
by upsertWiki during context gathering), the emitted progress events, the
Feature records persisted by insertFeature, and the returned wiki id or
the thrown error. -/
structure PipelineRun where
  statuses : List WikiStatus
  events : List AnalysisEvent
  persistedFeatures : List Feature
  result : Except Str Str
  deriving Repr

/-- Model of runAnalysisPipeline (analyzer source) with its phase
collaborator outcomes as parameters: gather is the context-gather phase
(metadata, tree, readme fetches; failure modelled at its first fetch),
identify the feature-identification LLM call, gen the per-feature step of
generateAllPages, overviewRes the overview synthesis call, persistChunks
the chunk + embed + insert phase.  The catch block of the source turns any
thrown error into one terminal error event and rethrows. -/
def runAnalysisPipeline (wikiId : Str)
    (gather : Except Str Unit)
    (identify : Except Str (List IdentifiedFeature))
    (gen : IdentifiedFeature → Nat → Option Feature)
    (overviewRes : Except Str Str)
    (persistChunks : Except Str Unit) : PipelineRun :=
  let ev0 : List AnalysisEvent :=
    [AnalysisEvent.status WikiStatus.fetchingTree
      ("Fetching repository metadata...").data]
  match gather with
  | Except.error m => ⟨[], ev0 ++ [AnalysisEvent.error m], [], Except.error m⟩
  | Except.ok _ =>
    let st1 := [WikiStatus.pending]
    let ev2 := ev0 ++
      [AnalysisEvent.status WikiStatus.fetchingTree ("Fetching file tree...").data,
       AnalysisEvent.status WikiStatus.fetchingTree
         ("Fetching README and manifests...").data]
    let st2 := st1 ++ [WikiStatus.identifyingFeatures]
    let ev3 := ev2 ++
      [AnalysisEvent.status WikiStatus.identifyingFeatures
        ("Identifying user-facing features...").data]
    match identify with
    | Except.error m => ⟨st2, ev3 ++ [AnalysisEvent.error m], [], Except.error m⟩
    | Except.ok identified =>
      if identified.isEmpty then
        let m := ("No features identified in repository").data
        ⟨st2, ev3 ++ [AnalysisEvent.error m], [], Except.error m⟩
      else
        let capped := identified.take MAX_FEATURES
        let ev4 := ev3 ++
          [AnalysisEvent.featuresList (capped.map (·.title)),
           AnalysisEvent.status WikiStatus.generatingPages
             ("Generating wiki pages...").data]
        let st3 := st2 ++ [WikiStatus.generatingPages]
        let pg := generateAllPages gen capped
        let ev5 := ev4 ++ pg.2 ++
          [AnalysisEvent.status WikiStatus.generatingPages
            ("Generating overview page...").data]
        match overviewRes with
        | Except.error m =>
          ⟨st3, ev5 ++ [AnalysisEvent.error m], pg.1, Except.error m⟩
        | Except.ok _ =>
          let st4 := st3 ++ [WikiStatus.embedding]
          let ev6 := ev5 ++
            [AnalysisEvent.status WikiStatus.embedding
              ("Creating search index...").data]
          match persistChunks with
          | Except.error m =>
            ⟨st4, ev6 ++ [AnalysisEvent.error m], pg.1, Except.error m⟩
          | Except.ok _ =>
            ⟨st4 ++ [WikiStatus.done], ev6 ++ [AnalysisEvent.done wikiId],
              pg.1, Except.ok wikiId⟩

/-! ### Retriable embedding batcher (openai embeddings source:
generateEmbeddings) -/

/-- Batch size of the embedding call (embeddings source, BATCH_SIZE). -/
def BATCH_SIZE : Nat := 7

/-- Model of the p-retry wrapper with retries 3: up to four attempts, the
first succeeding one wins; attempt k b is the outcome of the k-th attempt
of the embedding call on the batch. -/
def retryEmbed {γ : Type _} (attempt : Nat → List Str → Option γ)
    (b : List Str) : Option γ :=
  (attempt 0 b).orElse fun _ =>
    (attempt 1 b).orElse fun _ =>
      (attempt 2 b).orElse fun _ => attempt 3 b

/-- Model of generateEmbeddings: the empty input returns at once;
otherwise the texts are sliced into batches of BATCH_SIZE, every batch
goes through the retried embedding call with a catch to the empty list,
the batches run through batchAll (concurrency 5; the ordering theorem
justifies input order), and the per-batch vector lists are flattened. -/
def generateEmbeddings {γ : Type _} (attempt : Nat → List Str → Option (List γ))
    (texts : List Str) : List γ :=
  if texts.isEmpty then []
  else
    ((toBatches BATCH_SIZE texts).map fun b =>
      (retryEmbed attempt b).getD []).flatten

/-- Model of the record construction of embedWikiAndCode (embedder
source): every chunk text is paired index-wise with embeddings[i], an
out-of-range index giving undefined (none).  The wiki_id and chunkMeta
fields of the records are threaded through unchanged and play no part in
the claims, so a record is its content paired with its embedding. -/
def buildChunkRecords {γ : Type _} (texts : List Str) (embeddings : List γ) :
    List (Str × Option γ) :=
  texts.enum.map fun p => (p.2, embeddings.get? p.1)

/-- The records embedWikiAndCode hands to insertChunks, as built from the
texts and the generateEmbeddings output. -/
def embedWikiAndCodeRecords {γ : Type _}
    (attempt : Nat → List Str → Option (List γ)) (texts : List Str) :
    List (Str × Option γ) :=
  buildChunkRecords texts (generateEmbeddings attempt texts)

/-! ### Chat retrieval assembler (chat route source: POST) -/

/-- One semantic search result of matchChunks (content and source file;
the other columns play no part in the claim). -/
structure SemChunk where
  content : Str
  source_file : Option Str
  deriving DecidableEq, Repr

/-- Model of the context assembly of the chat route: overview entry when
the overview is nonempty (2000-character slice), page-context entry when
supplied (the empty string is falsy, as in the source), one entry per
semantic match (prefixed with its source file when known; matched is
empty both when nothing passed the threshold and when the question
embedding came back empty), and the fallback block: when the assembled
list is no longer than the page-context entry alone, up to 15 feature
entries of title, summary and a 500-character body slice are appended. -/
def assembleChatContext (overview pageContext : Str) (matched : List SemChunk)
    (features : List Feature) : List Str :=
  let c0 : List Str :=
    if overview ≠ [] then [("[Wiki Overview]\n").data ++ overview.take 2000]
    else []
  let c1 : List Str := c0 ++
    (if pageContext ≠ [] then [("[Current Page Context]\n").data ++ pageContext]
     else [])
  let c2 : List Str := c1 ++ matched.map fun c =>
    (match c.source_file with
     | some f => ("[Source: ").data ++ f ++ ("]\n").data
     | none => []) ++ c.content
  if c2.length ≤ (if pageContext ≠ [] then 1 else 0) then
    c2 ++ (features.take 15).map fun f =>
      ("[Feature: ").data ++ f.title ++ ("]\nSummary: ").data ++ f.summary ++
        ("\n").data ++ f.markdown_content.take 500
  else c2

/-! ### Wiki upsert (db source: upsertWiki, current revision) -/

/-- A persisted wiki row (the columns upsertWiki touches). -/
structure WikiRow where
  id : Str
  owner : Str
  repo : Str
  default_branch : Str
  overview : Str
  status : WikiStatus
  deriving DecidableEq, Repr

/-- A store write issued by upsertWiki. -/
inductive DbOp
  | resetWiki (id : Str) (status : WikiStatus) (branch : Str)
  | deleteChunks (wikiId : Str)
  | deleteFeatures (wikiId : Str)
  | insertWiki (owner repo branch : Str) (status : WikiStatus)
  deriving DecidableEq, Repr

/-- Model of upsertWiki: existing is the row already stored for the
(owner, repo) pair, if any.  A wiki whose status is done is returned
unchanged with no store writes; any other existing wiki is reset to
pending with the new default branch and its chunks and features are
deleted (in the source through Promise.all, before anything is
regenerated); with no existing row a fresh pending wiki is inserted (its
id is generated by the store; a placeholder stands for it). -/
def upsertWiki (owner repo defaultBranch : Str) (existing : Option WikiRow) :
    WikiRow × List DbOp :=
  match existing with
  | some row =>
    if row.status = WikiStatus.done then (row, [])
    else
      ({ row with status := WikiStatus.pending, default_branch := defaultBranch },
       [DbOp.resetWiki row.id WikiStatus.pending defaultBranch,
        DbOp.deleteChunks row.id, DbOp.deleteFeatures row.id])
  | none =>
    (⟨("generated-id").data, owner, repo, defaultBranch, [], WikiStatus.pending⟩,
     [DbOp.insertWiki owner repo defaultBranch WikiStatus.pending])

/-- Whether an event is the terminal error event. -/
def AnalysisEvent.isError : AnalysisEvent → Bool
  | AnalysisEvent.error _ => true
  | _ => false

/-- Whether an event is a feature_done event carrying the partial marker. -/
def isPartialDone : AnalysisEvent → Bool
  | AnalysisEvent.featureDone t => (" (partial)").data.isSuffixOf t
  | _ => false

/-- Number of partial feature_done events. -/
def countPartial (events : List AnalysisEvent) : Nat :=
  events.countP isPartialDone

/-- The 14 chunk texts of the C7 failing input, two batches of 7. -/
def c7texts : List Str :=
  [("t00").data, ("t01").data, ("t02").data, ("t03").data, ("t04").data,
   ("t05").data, ("t06").data, ("t07").data, ("t08").data, ("t09").data,
   ("t10").data, ("t11").data, ("t12").data, ("t13").data]

/-- The C7 embedding collaborator: every attempt on the batch starting at
the first text fails; any other batch embeds each text to itself (an
injective stand-in for the per-text vector, which makes misalignment
visible). -/
def c7attempt : Nat → List Str → Option (List Str) :=
  fun _ b => if b.head? = some (("t00").data) then none else some b

/-- A concrete persisted Topic for the C8 counterexample. -/
def c8feature : Feature :=
  ⟨("w").data, ("s").data, ("T").data, ("S").data, ("B").data, 0⟩

/-- The already-done wiki row of the C9 counterexample. -/
def doneRow : WikiRow :=
  ⟨("id1").data, ("o").data, ("r").data, ("main").data, [], WikiStatus.done⟩

/-! ### Supporting lemmas and claim theorems -/

theorem splitLines_ne_nil (s : Str) : splitLines s ≠ [] := by
  cases s with
  | nil => simp [splitLines]
  | cons c rest =>
    simp only [splitLines]
    split
    · simp
    · split
      · simp
      · simp

theorem joinLines_splitLines (s : Str) : joinLines (splitLines s) = s := by
  induction s with
  | nil => simp [splitLines, joinLines, List.intercalate]
  | cons c rest ih =>
    simp only [splitLines]
    split
    · rename_i hc
      subst hc
      cases h : splitLines rest with
      | nil => exact absurd h (splitLines_ne_nil rest)
      | cons l ls =>
        rw [h] at ih
        simp only [joinLines, List.intercalate] at ih ⊢
        simp only [List.intersperse, List.flatten] at ih ⊢
        simpa using ih
    · cases h : splitLines rest with
      | nil => exact absurd h (splitLines_ne_nil rest)
      | cons l ls =>
        rw [h] at ih
        simp only [joinLines, List.intercalate] at ih ⊢
        cases ls with
        | nil => simpa using ih
        | cons l2 ls2 =>
          simp only [List.intersperse, List.flatten] at ih ⊢
          simpa using ih

theorem toBatches_join (k : Nat) (l : List α) : (toBatches k l).flatten = l := by
  match k, l with
  | _, [] => cases k <;> simp [toBatches]
  | 0, a :: rest => simp [toBatches]
  | k + 1, a :: rest =>
    have ih := toBatches_join (k + 1) (rest.drop k)
    simp only [toBatches, List.flatten_cons, ih]
    have : (a :: rest).drop (k + 1) = rest.drop k := by simp
    rw [← this, List.take_append_drop]
termination_by l.length
decreasing_by
  simp only [List.length_cons, List.length_drop]
  omega

theorem toBatches_mem_length_le (k : Nat) (l : List α) (b : List α)
    (hb : b ∈ toBatches (k + 1) l) : b.length ≤ k + 1 := by
  match l with
  | [] => simp [toBatches] at hb
  | a :: rest =>
    simp only [toBatches, List.mem_cons] at hb
    rcases hb with h | h
    · subst h; simp
    · exact toBatches_mem_length_le k (rest.drop k) b h
termination_by l.length
decreasing_by
  simp only [List.length_cons, List.length_drop]
  omega

theorem toBatches_mem_ne_nil (k : Nat) (l : List α) (b : List α)
    (hb : b ∈ toBatches (k + 1) l) : b ≠ [] := by
  match l with
  | [] => simp [toBatches] at hb
  | a :: rest =>
    simp only [toBatches, List.mem_cons] at hb
    rcases hb with h | h
    · subst h; simp
    · exact toBatches_mem_ne_nil k (rest.drop k) b h
termination_by l.length
decreasing_by
  simp only [List.length_cons, List.length_drop]
  omega

theorem splitByTokenLimit_join (text : Str) (limit : Nat) :
    (splitByTokenLimit text limit).flatten = text := by
  unfold splitByTokenLimit
  split
  · simp
  · exact toBatches_join limit text

theorem splitByTokenLimit_length_le (text : Str) (limit : Nat) (h : 1 ≤ limit)
    (p : Str) (hp : p ∈ splitByTokenLimit text limit) : countTokens p ≤ limit := by
  unfold splitByTokenLimit at hp
  split at hp
  · rename_i ht
    simp only [List.mem_singleton] at hp
    subst hp; exact ht
  · cases limit with
    | zero => omega
    | succ k => exact toBatches_mem_length_le k text p hp

theorem splitByTokenLimit_ne_nil (text : Str) (limit : Nat) :
    splitByTokenLimit text limit ≠ [] := by
  unfold splitByTokenLimit
  split
  · simp
  · rename_i ht
    cases text with
    | nil => simp [countTokens] at ht
    | cons c rest =>
      cases limit with
      | zero => simp [toBatches]
      | succ k => simp [toBatches]

theorem splitByTokenLimit_of_le (text : Str) (limit : Nat)
    (h : countTokens text ≤ limit) : splitByTokenLimit text limit = [text] := by
  simp [splitByTokenLimit, h]

theorem joinLines_nil : joinLines [] = [] := by
  simp [joinLines, List.intercalate]

theorem joinLines_singleton (l : Str) : joinLines [l] = l := by
  simp [joinLines, List.intercalate]

theorem joinLines_cons_cons (a b : Str) (t : List Str) :
    joinLines (a :: b :: t) = a ++ '\n' :: joinLines (b :: t) := by
  simp [joinLines, List.intercalate, List.intersperse]

theorem joinLines_append (l1 l2 : List Str) (h1 : l1 ≠ []) (h2 : l2 ≠ []) :
    joinLines (l1 ++ l2) = joinLines l1 ++ '\n' :: joinLines l2 := by
  induction l1 with
  | nil => exact absurd rfl h1
  | cons a t ih =>
    cases t with
    | nil =>
      cases l2 with
      | nil => exact absurd rfl h2
      | cons b t2 => simp [joinLines_cons_cons, joinLines_singleton]
    | cons b t2 =>
      have := ih (by simp)
      calc joinLines ((a :: b :: t2) ++ l2)
          = a ++ '\n' :: joinLines ((b :: t2) ++ l2) := by
            simpa using joinLines_cons_cons a b (t2 ++ l2)
        _ = a ++ '\n' :: (joinLines (b :: t2) ++ '\n' :: joinLines l2) := by
            rw [this]
        _ = joinLines (a :: b :: t2) ++ '\n' :: joinLines l2 := by
            rw [joinLines_cons_cons]; simp

theorem groupSections_flatten (lines : List Str) :
    (groupSections lines).flatten = lines := by
  match lines with
  | [] => simp [groupSections]
  | [l] => simp [groupSections]
  | l :: l2 :: ls =>
    have ih := groupSections_flatten (l2 :: ls)
    rcases h : groupSections (l2 :: ls) with _ | ⟨g, gs⟩
    · rw [h] at ih; simp at ih
    · rw [h] at ih
      simp only [List.flatten_cons] at ih
      simp only [groupSections, h]
      split <;> simp [List.flatten_cons, ih]

theorem groupSections_mem_ne_nil (lines : List Str) (g : List Str)
    (hg : g ∈ groupSections lines) : g ≠ [] := by
  match lines with
  | [] => simp [groupSections] at hg
  | [l] =>
    simp only [groupSections, List.mem_singleton] at hg
    subst hg; simp
  | l :: l2 :: ls =>
    have ih := groupSections_mem_ne_nil (l2 :: ls)
    simp only [groupSections] at hg
    rcases h : groupSections (l2 :: ls) with _ | ⟨g0, gs⟩
    · rw [h] at hg
      simp only [List.mem_singleton] at hg
      subst hg; simp
    · rw [h] at hg
      have hg2 : g ∈ (if startsWithL "## " l2 = true then
          [l] :: g0 :: gs else (l :: g0) :: gs) := hg
      by_cases hb : startsWithL "## " l2 = true
      · rw [if_pos hb] at hg2
        rcases List.mem_cons.mp hg2 with h1 | h1
        · subst h1; simp
        · exact ih g (h.symm ▸ h1)
      · rw [if_neg hb] at hg2
        rcases List.mem_cons.mp hg2 with h1 | h1
        · subst h1; simp
        · exact ih g (h.symm ▸ List.mem_cons_of_mem g0 h1)

theorem renderSections_flatten (gs : List (List Str))
    (h : ∀ g ∈ gs, g ≠ []) :
    (renderSections gs).flatten = joinLines gs.flatten := by
  match gs with
  | [] => simp [renderSections, joinLines_nil]
  | [g] => simp [renderSections, joinLines]
  | g :: g2 :: t =>
    have ih := renderSections_flatten (g2 :: t) (fun x hx => h x (List.mem_cons_of_mem g hx))
    have hg : g ≠ [] := h g (by simp)
    have hflat : (g2 :: t).flatten ≠ [] := by
      have hg2 : g2 ≠ [] := h g2 (by simp)
      simp only [List.flatten_cons]
      intro hc
      exact hg2 (List.append_eq_nil.mp hc).1
    simp only [renderSections, List.flatten_cons, ih]
    have happ := joinLines_append g (g2 :: t).flatten hg hflat
    simp only [List.flatten_cons] at happ
    rw [happ]
    simp

theorem splitSections_flatten (s : Str) : (splitSections s).flatten = s := by
  unfold splitSections
  rw [renderSections_flatten _ (groupSections_mem_ne_nil (splitLines s)),
    groupSections_flatten, joinLines_splitLines]

theorem wikiBodies_flatten (t s md : Str) :
    (wikiBodies t s md).flatten =
      s ++ ((splitSections md).map trimStr).flatten := by
  unfold wikiBodies
  rw [List.flatten_append]
  congr 1
  · exact splitByTokenLimit_join _ _
  · induction splitSections md with
    | nil => simp
    | cons sec rest ih =>
      simp only [List.flatMap_cons, List.map_cons, List.flatten_append,
        List.flatten_cons, ih]
      congr 1
      split
      · rename_i hsec; simp [hsec]
      · exact splitByTokenLimit_join _ _

theorem foldl_invariant {σ τ : Type _} (f : σ → τ → σ) (P : σ → Prop)
    (hf : ∀ s t, P s → P (f s t)) :
    ∀ (l : List τ) (s : σ), P s → P (l.foldl f s)
  | [], _, hs => hs
  | t :: ts, s, hs => foldl_invariant f P hf ts (f s t) (hf s t hs)

theorem flushUnit_units_wf (fp ib ih : Str) (st : CState)
    (h : ∀ u ∈ st.units, UnitWF u) :
    ∀ u ∈ (flushUnit fp ib ih st).units, UnitWF u := by
  simp only [flushUnit]
  split
  · exact h
  · split
    · exact h
    · rename_i hraw
      intro u hu
      simp only [List.mem_append, List.mem_singleton] at hu
      rcases hu with hu | hu
      · exact h u hu
      · subst hu
        exact ⟨rfl, hraw⟩

theorem chunkStep_units_wf (isB : Str → Bool) (exS : Str → Option Str)
    (fp ib ih : Str) (st : CState) (p : Nat × Str)
    (h : ∀ u ∈ st.units, UnitWF u) :
    ∀ u ∈ (chunkStep isB exS fp ib ih st p).units, UnitWF u := by
  simp only [chunkStep]
  have hflush := flushUnit_units_wf fp ib ih st h
  split <;> split <;> first | exact hflush | exact h

theorem chunkCodeFileUnits_wf (isB : Str → Bool) (exS : Str → Option Str)
    (fp content : Str) :
    ∀ u ∈ chunkCodeFileUnits isB exS fp content, UnitWF u := by
  unfold chunkCodeFileUnits
  split
  · simp
  · exact flushUnit_units_wf _ _ _ _
      (foldl_invariant _ (fun st => ∀ u ∈ st.units, UnitWF u)
        (fun s t hs => chunkStep_units_wf _ _ _ _ _ s t hs) _ _ (by simp))

theorem flatMap_bodies_flatten (us : List CUnit) (h : ∀ u ∈ us, UnitWF u) :
    (us.flatMap (·.bodies)).flatten = (us.map (·.raw)).flatten := by
  induction us with
  | nil => simp
  | cons u us ih =>
    simp only [List.flatMap_cons, List.map_cons, List.flatten_append,
      List.flatten_cons]
    rw [ih (fun v hv => h v (List.mem_cons_of_mem u hv)),
      (h u (by simp)).1, splitByTokenLimit_join]

theorem codeBodiesP_flatten (isB : Str → Bool) (exS : Str → Option Str)
    (fp content : Str) :
    (codeBodiesP isB exS fp content).flatten =
      ((chunkCodeFileUnits isB exS fp content).map (·.raw)).flatten :=
  flatMap_bodies_flatten _ (chunkCodeFileUnits_wf isB exS fp content)

theorem chunkCodeFileUnits_empty (isB : Str → Bool) (exS : Str → Option Str)
    (fp content : Str) (h : trimStr content = []) :
    chunkCodeFileUnits isB exS fp content = [] := by
  simp [chunkCodeFileUnits, h]

theorem foldl_chunkStep_no_boundary (isB : Str → Bool) (exS : Str → Option Str)
    (fp ib ih : Str) (ps : List (Nat × Str))
    (hnb : ∀ p ∈ ps, isB (trimStr p.2) = false) :
    ∀ st : CState,
      ps.foldl (chunkStep isB exS fp ib ih) st =
        { st with currentLines := st.currentLines ++ ps.map (·.2) } := by
  induction ps with
  | nil => intro st; cases st; simp
  | cons p ps ihp =>
    intro st
    have hp : isB (trimStr p.2) = false := hnb p (by simp)
    have hstep : chunkStep isB exS fp ib ih st p =
        { st with currentLines := st.currentLines ++ [p.2] } := by
      unfold chunkStep
      simp [hp]
    rw [List.foldl_cons, hstep,
      ihp (fun q hq => hnb q (List.mem_cons_of_mem p hq))]
    simp

theorem chunkCodeFileUnits_no_boundary (isB : Str → Bool)
    (exS : Str → Option Str) (fp content : Str)
    (hnb : ∀ l ∈ splitLines content, isB (trimStr l) = false)
    (hne : trimStr content ≠ []) :
    chunkCodeFileUnits isB exS fp content =
      [⟨fileOnlyHeader fp, trimStr content,
        splitByTokenLimit (trimStr content)
          (max 64 (MAX_CHUNK_TOKENS - countTokens (fileOnlyHeader fp))),
        1, (splitLines content).length, none⟩] := by
  have hnb2 : ∀ p ∈ (splitLines content).enum, isB (trimStr p.2) = false := by
    intro p hp
    apply hnb
    have : p.2 ∈ (splitLines content).enum.map Prod.snd := List.mem_map_of_mem _ hp
    simpa [List.enum_map_snd] using this
  simp only [chunkCodeFileUnits]
  rw [if_neg hne]
  rw [foldl_chunkStep_no_boundary isB exS fp _ _ _ hnb2]
  have hlines : ([] : List Str) ++ ((splitLines content).enum.map (·.2)) =
      splitLines content := by
    simp [List.enum_map_snd]
  simp only [hlines]
  simp only [flushUnit]
  rw [if_neg (splitLines_ne_nil content)]
  simp only [joinLines_splitLines]
  rw [if_neg hne, if_pos ⟨Nat.succ_le_succ (Nat.zero_le _), trivial⟩]
  simp

theorem get?_decomp {α : Type _} {l : List α} {w : Nat} {b : α}
    (h : l.get? w = some b) :
    l = l.take w ++ b :: l.drop (w + 1) ∧
      (∀ v, l.set w v = l.take w ++ v :: l.drop (w + 1)) ∧
      l.eraseIdx w = l.take w ++ l.drop (w + 1) ∧
      (l.take w).length = w := by
  induction l generalizing w with
  | nil => simp at h
  | cons a t ih =>
    cases w with
    | zero =>
      simp only [List.get?] at h
      injection h with h
      subst h
      refine ⟨by simp, fun v => by simp, by simp [List.eraseIdx], by simp⟩
    | succ w =>
      simp only [List.get?] at h
      obtain ⟨h1, h2, h3, h4⟩ := ih h
      refine ⟨?_, fun v => ?_, ?_, ?_⟩
      · simpa [List.take_succ_cons, List.drop_succ_cons] using congrArg (a :: ·) h1
      · simpa [List.set, List.take_succ_cons, List.drop_succ_cons]
          using congrArg (a :: ·) (h2 v)
      · simpa [List.eraseIdx, List.take_succ_cons, List.drop_succ_cons]
          using congrArg (a :: ·) h3
      · simp [List.take_succ_cons, h4]

theorem mem_set_of_mem_of_ne {α : Type _} {l : List α} {w : Nat} {b : α}
    (h : l.get? w = some b) {a : α} (ha : a ∈ l) (hab : a ≠ b) (v : α) :
    a ∈ l.set w v := by
  obtain ⟨h1, h2, _, _⟩ := get?_decomp h
  rw [h2 v]
  rw [h1] at ha
  rcases List.mem_append.mp ha with h3 | h3
  · exact List.mem_append.mpr (Or.inl h3)
  · rcases List.mem_cons.mp h3 with h4 | h4
    · exact absurd h4 hab
    · exact List.mem_append.mpr (Or.inr (List.mem_cons_of_mem v h4))

theorem mem_set_self {α : Type _} {l : List α} {w : Nat} {b : α}
    (h : l.get? w = some b) (v : α) : v ∈ l.set w v := by
  obtain ⟨_, h2, _, _⟩ := get?_decomp h
  rw [h2 v]
  exact List.mem_append.mpr (Or.inr (by simp))

theorem mem_of_mem_set {α : Type _} {l : List α} {w : Nat} {b : α}
    (h : l.get? w = some b) {a v : α} (ha : a ∈ l.set w v) :
    a = v ∨ a ∈ l := by
  obtain ⟨h1, h2, _, _⟩ := get?_decomp h
  rw [h2 v] at ha
  rcases List.mem_append.mp ha with h3 | h3
  · exact Or.inr (by rw [h1]; exact List.mem_append.mpr (Or.inl h3))
  · rcases List.mem_cons.mp h3 with h4 | h4
    · exact Or.inl h4
    · exact Or.inr (by
        rw [h1]
        exact List.mem_append.mpr (Or.inr (List.mem_cons_of_mem b h4)))

theorem mem_eraseIdx_of_mem_of_ne {α : Type _} {l : List α} {w : Nat} {b : α}
    (h : l.get? w = some b) {a : α} (ha : a ∈ l) (hab : a ≠ b) :
    a ∈ l.eraseIdx w := by
  obtain ⟨h1, _, h3, _⟩ := get?_decomp h
  rw [h3]
  rw [h1] at ha
  rcases List.mem_append.mp ha with h4 | h4
  · exact List.mem_append.mpr (Or.inl h4)
  · rcases List.mem_cons.mp h4 with h5 | h5
    · exact absurd h5 hab
    · exact List.mem_append.mpr (Or.inr h5)

theorem count_set_le {α : Type _} [DecidableEq α] {l : List α} {w : Nat}
    {b : α} (h : l.get? w = some b) (a v : α) (hav : a ≠ v) :
    (l.set w v).count a ≤ l.count a := by
  obtain ⟨h1, h2, _, _⟩ := get?_decomp h
  rw [h2 v]
  conv_rhs => rw [h1]
  simp only [List.count_append, List.count_cons]
  have hv : (v == a) = false := by simp [Ne.symm hav]
  simp only [hv, Bool.false_eq_true, if_false]
  omega

theorem count_eraseIdx_le {α : Type _} [DecidableEq α] {l : List α} {w : Nat}
    {b : α} (h : l.get? w = some b) (a : α) :
    (l.eraseIdx w).count a ≤ l.count a := by
  obtain ⟨h1, _, h3, _⟩ := get?_decomp h
  rw [h3]
  conv_rhs => rw [h1]
  simp only [List.count_append, List.count_cons]
  omega

theorem count_set_eq {α : Type _} [DecidableEq α] {l : List α} {w : Nat}
    {b : α} (h : l.get? w = some b) (v : α) :
    (l.set w v).count v =
      (l.take w).count v + (l.drop (w + 1)).count v + 1 := by
  obtain ⟨_, h2, _, _⟩ := get?_decomp h
  rw [h2 v]
  simp [List.count_append, List.count_cons]
  omega

theorem get?_set_self {α : Type _} {l : List α} {i : Nat} (h : i < l.length)
    (v : α) : (l.set i v).get? i = some v := by
  induction l generalizing i with
  | nil => simp at h
  | cons a t ih =>
    cases i with
    | zero => simp [List.set]
    | succ i => simpa [List.set] using ih (by simpa using h)

theorem get?_set_ne {α : Type _} (l : List α) {i j : Nat} (h : j ≠ i)
    (v : α) : (l.set i v).get? j = l.get? j := by
  induction l generalizing i j with
  | nil => simp
  | cons a t ih =>
    cases i with
    | zero =>
      cases j with
      | zero => exact absurd rfl h
      | succ j => simp [List.set]
    | succ i =>
      cases j with
      | zero => simp [List.set]
      | succ j => simpa [List.set] using ih (fun hc => h (by omega))

theorem get?_replicate {α : Type _} (a : α) {n j : Nat} (h : j < n) :
    (List.replicate n a).get? j = some a := by
  induction n generalizing j with
  | zero => omega
  | succ n ih =>
    cases j with
    | zero => simp [List.replicate]
    | succ j => simpa [List.replicate] using ih (by omega)

theorem batchInv_init (β : Type) (N K : Nat) (f : Nat → β) (hK : 1 ≤ K) :
    BatchInv N f (batchInit β N K) := by
  refine ⟨by simp [batchInit], by simp [batchInit], ?_, ?_, ?_, ?_, ?_⟩
  · intro j hj
    simp [batchInit] at hj
  · intro j _ hj2
    simp only [batchInit]
    exact get?_replicate _ hj2
  · intro j hmem
    simp only [batchInit] at hmem
    have := List.eq_of_mem_replicate hmem
    simp at this
  · intro j
    have : WStat.running j ∉ List.replicate (min K N) WStat.idle := by
      intro hc
      exact absurd (List.eq_of_mem_replicate hc) (by simp)
    simp [batchInit, List.count_eq_zero.mpr this]
  · intro hc
    simp only [batchInit, List.replicate_eq_nil_iff] at hc
    rcases Nat.min_eq_zero_iff.mp hc with h | h
    · omega
    · simp [batchInit, h]

theorem batchInv_step {β : Type} {N : Nat} {f : Nat → β} {s s' : BatchState β}
    (hs : BatchInv N f s) (hstep : BatchStep N f s s') : BatchInv N f s' := by
  obtain ⟨n, res, ws⟩ := s
  have hlen : res.length = N := hs.hlen
  have hnn : n ≤ N := hs.hnn
  have hfill : ∀ j, j < n →
      WStat.running j ∈ ws ∨ res.get? j = some (some (f j)) := hs.hfill
  have hbey : ∀ j, n ≤ j → j < N → res.get? j = some none := hs.hbey
  have hrun : ∀ j, WStat.running j ∈ ws → j < n := hs.hrun
  have hcnt : ∀ j, ws.count (WStat.running j) ≤ 1 := hs.hcnt
  cases hstep with
  | claim w hw hn =>
    have hn2 : n < N := hn
    refine ⟨hlen, by show n + 1 ≤ N; omega, ?_, ?_, ?_, ?_, ?_⟩
    · intro j hj
      by_cases hj2 : j < n
      · rcases hfill j hj2 with hmem | hres
        · exact Or.inl (mem_set_of_mem_of_ne hw hmem (fun hc => by simp at hc) _)
        · exact Or.inr hres
      · have hje : j = n := by
          have : j < n + 1 := hj
          omega
        subst hje
        exact Or.inl (mem_set_self hw _)
    · intro j h1 h2
      exact hbey j (by
        have : n + 1 ≤ j := h1
        omega) h2
    · intro j hmem
      show j < n + 1
      rcases mem_of_mem_set hw hmem with heq | hmem2
      · injection heq with h
        have h2 : j = n := h
        omega
      · have := hrun j hmem2
        omega
    · intro j
      by_cases hj : j = n
      · subst hj
        show (ws.set w (WStat.running j)).count (WStat.running j) ≤ 1
        rw [count_set_eq hw]
        have ht : WStat.running j ∉ ws.take w := by
          intro hc
          exact absurd (hrun _ (List.take_subset _ _ hc)) (by omega)
        have hd : WStat.running j ∉ ws.drop (w + 1) := by
          intro hc
          exact absurd (hrun _ (List.drop_subset _ _ hc)) (by omega)
        rw [List.count_eq_zero.mpr ht, List.count_eq_zero.mpr hd]
      · calc (ws.set w (WStat.running n)).count (WStat.running j)
            ≤ ws.count (WStat.running j) := count_set_le hw _ _ (by simp [hj])
          _ ≤ 1 := hcnt j
    · intro hc
      have h1 : ws ≠ [] := by
        intro h0
        rw [h0] at hw
        simp at hw
      have h2 : (ws.set w (WStat.running n)).length = 0 := by
        show (ws.set w (WStat.running n)).length = 0
        rw [show ws.set w (WStat.running n) = ([] : List WStat) from hc]
        rfl
      simp only [List.length_set] at h2
      exact absurd (List.eq_nil_of_length_eq_zero h2) h1
  | exit w hw hn =>
    refine ⟨hlen, hnn, ?_, hbey, ?_, ?_, fun _ => hn⟩
    · intro j hj
      rcases hfill j hj with hmem | hres
      · exact Or.inl (mem_eraseIdx_of_mem_of_ne hw hmem (fun hc => by simp at hc))
      · exact Or.inr hres
    · intro j hmem
      obtain ⟨_, _, h3, _⟩ := get?_decomp hw
      rw [h3] at hmem
      rcases List.mem_append.mp hmem with h4 | h4
      · exact hrun j (List.take_subset _ _ h4)
      · exact hrun j (List.drop_subset _ _ h4)
    · intro j
      exact le_trans (count_eraseIdx_le hw _) (hcnt j)
  | complete w i hw =>
    have hi : i < n := hrun i (List.get?_mem hw)
    have hiN : i < N := lt_of_lt_of_le hi hnn
    refine ⟨by simpa using hlen, hnn, ?_, ?_, ?_, ?_, ?_⟩
    · intro j hj
      by_cases hji : j = i
      · subst hji
        exact Or.inr (by rw [get?_set_self (by rw [hlen]; exact hiN)])
      · rcases hfill j hj with hmem | hres
        · exact Or.inl (mem_set_of_mem_of_ne hw hmem
            (fun hc => by injection hc with h; exact hji h) _)
        · exact Or.inr (by rw [get?_set_ne _ hji, hres])
    · intro j h1 h2
      have hji : j ≠ i := by
        have : n ≤ j := h1
        omega
      rw [get?_set_ne _ hji]
      exact hbey j h1 h2
    · intro j hmem
      rcases mem_of_mem_set hw hmem with heq | hmem2
      · exact absurd heq (fun hc => by simp at hc)
      · exact hrun j hmem2
    · intro j
      exact le_trans (count_set_le hw _ _ (fun hc => by simp at hc)) (hcnt j)
    · intro hc
      have h1 : ws ≠ [] := by
        intro h0
        rw [h0] at hw
        simp at hw
      have h2 : (ws.set w WStat.idle).length = 0 := by
        rw [show ws.set w WStat.idle = ([] : List WStat) from hc]
        rfl
      simp only [List.length_set] at h2
      exact absurd (List.eq_nil_of_length_eq_zero h2) h1

theorem batchInv_reachable {β : Type} {N K : Nat} {f : Nat → β}
    {s : BatchState β} (hK : 1 ≤ K)
    (h : Relation.ReflTransGen (BatchStep N f) (batchInit β N K) s) :
    BatchInv N f s := by
  induction h with
  | refl => exact batchInv_init β N K f hK
  | tail _ hstep ih => exact batchInv_step ih hstep

theorem batchInv_terminal {β : Type} {N : Nat} {f : Nat → β}
    {s : BatchState β} (hs : BatchInv N f s) (hw : s.workers = []) :
    s.results = (List.range N).map (fun i => some (f i)) := by
  have hN : N ≤ s.nextIndex := hs.hterm hw
  apply List.ext_get?
  intro j
  by_cases hj : j < N
  · rcases hs.hfill j (lt_of_lt_of_le hj hN) with hmem | hres
    · rw [hw] at hmem
      simp at hmem
    · rw [hres]
      simp [List.getElem?_map, List.getElem?_range, hj]
  · rw [List.get?_eq_none.mpr (by rw [hs.hlen]; omega),
      List.get?_eq_none.mpr (by simp; omega)]

theorem fst_fetchFilesAndGeneratePage (gen : IdentifiedFeature → Nat → Option Feature)
    (f : IdentifiedFeature) (o : Nat) :
    (fetchFilesAndGeneratePage gen f o).1 = gen f o := by
  unfold fetchFilesAndGeneratePage
  cases gen f o <;> rfl

theorem length_filterMap_eq_countP {α β : Type _} (f : α → Option β)
    (l : List α) : (l.filterMap f).length = l.countP fun a => (f a).isSome := by
  induction l with
  | nil => simp
  | cons a t ih =>
    cases h : f a with
    | none => simp [List.filterMap_cons, List.countP_cons, h, ih]
    | some b => simp [List.filterMap_cons, List.countP_cons, h, ih]

theorem generateAllPages_features_length
    (gen : IdentifiedFeature → Nat → Option Feature)
    (fs : List IdentifiedFeature) :
    (generateAllPages gen fs).1.length =
      fs.enum.countP fun p => (gen p.2 p.1).isSome := by
  unfold generateAllPages
  simp only [List.filterMap_map]
  rw [length_filterMap_eq_countP]
  apply List.countP_congr
  intro p _
  rw [Function.comp_apply, fst_fetchFilesAndGeneratePage]

theorem countP_isSome_add_isNone
    (gen : IdentifiedFeature → Nat → Option Feature)
    (ps : List (Nat × IdentifiedFeature)) :
    (ps.countP fun p => (gen p.2 p.1).isSome) +
      (ps.countP fun p => (gen p.2 p.1).isNone) = ps.length := by
  induction ps with
  | nil => simp
  | cons p t ih =>
    cases h : gen p.2 p.1 <;> simp [List.countP_cons, h] <;> omega

theorem partial_count_aux (gen : IdentifiedFeature → Nat → Option Feature)
    (ps : List (Nat × IdentifiedFeature))
    (hclean : ∀ p ∈ ps, (" (partial)").data.isSuffixOf p.2.title = false) :
    ((ps.map fun p => (fetchFilesAndGeneratePage gen p.2 p.1).2).flatten).countP
        isPartialDone =
      ps.countP fun p => (gen p.2 p.1).isNone := by
  induction ps with
  | nil => simp
  | cons p t ih =>
    simp only [List.map_cons, List.flatten_cons, List.countP_append,
      List.countP_cons]
    rw [ih (fun q hq => hclean q (List.mem_cons_of_mem p hq))]
    have hcp : (" (partial)").data.isSuffixOf p.2.title = false :=
      hclean p (by simp)
    cases h : gen p.2 p.1 with
    | none =>
      simp only [fetchFilesAndGeneratePage, h]
      have hsuf : (" (partial)").data.isSuffixOf
          (p.2.title ++ (" (partial)").data) = true := by
        rw [List.isSuffixOf_iff_suffix]
        exact List.suffix_append _ _
      simp [isPartialDone, hsuf, hcp, List.countP_cons]
      omega
    | some feature =>
      simp only [fetchFilesAndGeneratePage, h]
      simp [isPartialDone, hcp, List.countP_cons]

theorem generateAllPages_partial_count
    (gen : IdentifiedFeature → Nat → Option Feature)
    (fs : List IdentifiedFeature)
    (hclean : ∀ f ∈ fs, (" (partial)").data.isSuffixOf f.title = false) :
    countPartial (generateAllPages gen fs).2 =
      fs.enum.countP fun p => (gen p.2 p.1).isNone := by
  unfold generateAllPages countPartial
  simp only [List.map_map]
  have hmem : ∀ p ∈ fs.enum, p.2 ∈ fs := by
    intro p hp
    have : p.2 ∈ fs.enum.map Prod.snd := List.mem_map_of_mem _ hp
    simpa [List.enum_map_snd] using this
  have := partial_count_aux gen fs.enum (fun q hq => hclean q.2 (hmem q hq))
  simpa [Function.comp] using this

theorem generateAllPages_events_not_error
    (gen : IdentifiedFeature → Nat → Option Feature)
    (fs : List IdentifiedFeature) :
    ∀ e ∈ (generateAllPages gen fs).2, e.isError = false := by
  intro e he
  unfold generateAllPages at he
  simp only [List.mem_flatten, List.mem_map] at he
  obtain ⟨l, ⟨r, ⟨p, _, rfl⟩, rfl⟩, hel⟩ := he
  cases h : gen p.2 p.1 <;>
    · simp only [fetchFilesAndGeneratePage, h, List.mem_cons,
        List.not_mem_nil, or_false] at hel
      rcases hel with h1 | h1 <;> (subst h1; rfl)

theorem retryEmbed_eq_some {γ : Type _} (attempt : Nat → List Str → Option γ)
    (b : List Str) (v : γ) (h : retryEmbed attempt b = some v) :
    ∃ k, k ≤ 3 ∧ attempt k b = some v := by
  unfold retryEmbed at h
  cases h0 : attempt 0 b with
  | some x =>
    rw [h0] at h
    simp only [Option.orElse] at h
    exact ⟨0, by omega, by rw [h0, h]⟩
  | none =>
    rw [h0] at h
    simp only [Option.orElse] at h
    cases h1 : attempt 1 b with
    | some x =>
      rw [h1] at h
      simp only [Option.orElse] at h
      exact ⟨1, by omega, by rw [h1, h]⟩
    | none =>
      rw [h1] at h
      simp only [Option.orElse] at h
      cases h2 : attempt 2 b with
      | some x =>
        rw [h2] at h
        simp only [Option.orElse] at h
        exact ⟨2, by omega, by rw [h2, h]⟩
      | none =>
        rw [h2] at h
        simp only [Option.orElse] at h
        exact ⟨3, by omega, h⟩

theorem generateEmbeddings_all_success {γ : Type _}
    (attempt : Nat → List Str → Option (List γ)) (E : Str → γ)
    (texts : List Str)
    (hall : ∀ b ∈ toBatches BATCH_SIZE texts,
      retryEmbed attempt b = some (b.map E)) :
    generateEmbeddings attempt texts = texts.map E := by
  unfold generateEmbeddings
  split
  · rename_i h
    rw [List.isEmpty_iff.mp h]
    rfl
  · have hmap : (toBatches BATCH_SIZE texts).map
        (fun b => (retryEmbed attempt b).getD []) =
        (toBatches BATCH_SIZE texts).map (fun b => b.map E) :=
      List.map_congr_left fun b hb => by rw [hall b hb]; rfl
    rw [hmap, ← List.map_flatten, toBatches_join]

theorem generateAllPages_length_le
    (gen : IdentifiedFeature → Nat → Option Feature)
    (fs : List IdentifiedFeature) :
    (generateAllPages gen fs).1.length ≤ fs.length := by
  unfold generateAllPages
  calc (List.filterMap Prod.fst
          (fs.enum.map fun p => fetchFilesAndGeneratePage gen p.2 p.1)).length
      ≤ (fs.enum.map fun p => fetchFilesAndGeneratePage gen p.2 p.1).length :=
        List.length_filterMap_le _ _
    _ = fs.length := by simp [List.enum_length]

theorem isEmpty_false_of_ne_nil {α : Type _} {l : List α} (h : l ≠ []) :
    l.isEmpty = false := by
  cases l with
  | nil => exact absurd rfl h
  | cons a t => rfl

theorem getLast?_append_right {α : Type _} (l1 l2 : List α) (h : l2 ≠ []) :
    (l1 ++ l2).getLast? = l2.getLast? := by
  induction l1 with
  | nil => rfl
  | cons a t ih =>
    show (a :: (t ++ l2)).getLast? = l2.getLast?
    cases h2 : t ++ l2 with
    | nil => exact absurd (List.append_eq_nil.mp h2).2 h
    | cons x xs =>
      rw [List.getLast?_cons_cons, ← h2, ih]

theorem getLast?_cons_append {α : Type _} (a : α) (l1 l2 : List α)
    (h : l2 ≠ []) : (a :: (l1 ++ l2)).getLast? = l2.getLast? := by
  rw [show a :: (l1 ++ l2) = (a :: l1) ++ l2 from rfl,
    getLast?_append_right _ _ h]

/-! ### Claim theorems -/

set_option maxRecDepth 10000 in
/-- C1: the chunker promises (doc comment of the chunker source, and the
spec) that every emitted passage, context header included, stays within
MAX_CHUNK_TOKENS = 1024 for every input.  The code breaks the promise as
soon as a chunk header exceeds 960 tokens, because flush floors the body
limit at 64 tokens and re-prepends the oversized header: chunking the
one-character file content under a 1030-character file path emits exactly
one chunk of 1042 tokens, above the 1024 budget.  An import block beyond
960 tokens violates it the same way on a short path. -/
theorem c1_token_budget_exceeded :
    (chunkCodeFile (List.replicate 1030 'a') ("x").data).map
        (fun c => countTokens c.content) = [1042] ∧
      MAX_CHUNK_TOKENS < 1042 :=
  ⟨by rfl, by decide⟩

/-- C2 counterexample: the claim quantifies over every concurrency limit
K, but batchAll(items, fn, 0) spawns min(0, N) = 0 workers, Promise.all of
nothing resolves at once, and the pre-sized array comes back with its
slot unwritten (undefined, modelled none) instead of the handler value
(here fn constantly 42): the initial state is already terminal with
results [none]. -/
theorem c2_counterexample_zero_concurrency :
    (batchInit Nat 1 0).workers = [] ∧
      (batchInit Nat 1 0).results = [Option.none] ∧
      ([Option.none] : List (Option Nat)) ≠ [some 42] :=
  ⟨rfl, by decide, by decide⟩

/-- C2 amended: for every positive concurrency limit K, every input count
N and every handler (f i standing for the value of fn(items[i], i)), any
maximal interleaving of the batchAll workers — any state reachable from
the initial one in which the pool has emptied — carries exactly N
results, the i-th being the handler value for index i, whatever the
completion order; for N = 0 the result is the empty list at once.  (The
invariant behind the proof also shows every index is claimed by at most
one worker, so no index is processed twice.) -/
theorem c2_batchAll_order (β : Type) (N K : Nat) (f : Nat → β) (hK : 1 ≤ K)
    (s : BatchState β)
    (hreach : Relation.ReflTransGen (BatchStep N f) (batchInit β N K) s)
    (hterm : s.workers = []) :
    s.results = (List.range N).map fun i => some (f i) :=
  batchInv_terminal (batchInv_reachable hK hreach) hterm

/-- C2 witness: a concrete complete schedule with two inputs, one worker
and the handler i + 1. -/
theorem c2_batchAll_order_witness :
    (⟨2, [some 1, some 2], []⟩ : BatchState Nat).results =
      (List.range 2).map fun i => some (i + 1) := by
  have h1 : BatchStep 2 (fun i => i + 1) (batchInit Nat 2 1)
      (⟨1, [none, none], [WStat.running 0]⟩ : BatchState Nat) :=
    BatchStep.claim (batchInit Nat 2 1) 0 rfl (by decide)
  have h2 : BatchStep 2 (fun i => i + 1)
      (⟨1, [none, none], [WStat.running 0]⟩ : BatchState Nat)
      (⟨1, [some 1, none], [WStat.idle]⟩ : BatchState Nat) :=
    BatchStep.complete _ 0 0 rfl
  have h3 : BatchStep 2 (fun i => i + 1)
      (⟨1, [some 1, none], [WStat.idle]⟩ : BatchState Nat)
      (⟨2, [some 1, none], [WStat.running 1]⟩ : BatchState Nat) :=
    BatchStep.claim _ 0 rfl (by decide)
  have h4 : BatchStep 2 (fun i => i + 1)
      (⟨2, [some 1, none], [WStat.running 1]⟩ : BatchState Nat)
      (⟨2, [some 1, some 2], [WStat.idle]⟩ : BatchState Nat) :=
    BatchStep.complete _ 0 1 rfl
  have h5 : BatchStep 2 (fun i => i + 1)
      (⟨2, [some 1, some 2], [WStat.idle]⟩ : BatchState Nat)
      (⟨2, [some 1, some 2], []⟩ : BatchState Nat) :=
    BatchStep.exit _ 0 rfl (by decide)
  exact c2_batchAll_order Nat 2 1 (fun i => i + 1) (by decide) _
    (Relation.ReflTransGen.head h1 (Relation.ReflTransGen.head h2
      (Relation.ReflTransGen.head h3 (Relation.ReflTransGen.head h4
        (Relation.ReflTransGen.head h5 Relation.ReflTransGen.refl))))) rfl

/-- C7: the spec (and the TODO comment of the embedder source, which
admits the order inconsistency) requires that when one embedding batch
exhausts its retries, exactly that batch's texts are omitted from
persistence and every other text keeps its own vector.  The code instead
pairs allChunkTexts[i] with embeddings[i] after the failed batch has been
flattened away: with 14 texts where the first batch of 7 fails, all 14
records are built, the first text is persisted with the vector of the
eighth text, and the last seven records carry undefined embeddings. -/
theorem c7_misaligned_persistence :
    (embedWikiAndCodeRecords c7attempt c7texts).length = 14 ∧
      (embedWikiAndCodeRecords c7attempt c7texts).get? 0 =
        some ((("t00").data), some (("t07").data)) ∧
      (embedWikiAndCodeRecords c7attempt c7texts).get? 13 =
        some ((("t13").data), Option.none) := by
  refine ⟨?_, ?_, ?_⟩ <;>
    simp +decide [embedWikiAndCodeRecords, buildChunkRecords,
      generateEmbeddings, toBatches, retryEmbed, c7attempt, c7texts,
      BATCH_SIZE]

/-- C8 counterexample: with a query whose semantic search returns nothing
above the threshold, the route supplies an empty context when the
overview is empty and no Topic exists (first conjunct, refuting the
promised non-empty context), and with a nonempty overview it supplies
only the overview entry — no Topic title + summary entries at all — even
though a Topic exists (second conjunct, refuting that the supplied
context is built from Topic entries). -/
theorem c8_counterexample_fallback :
    assembleChatContext [] [] [] [] = [] ∧
      assembleChatContext ("OV").data [] [] [c8feature] =
        [("[Wiki Overview]\n").data ++ ("OV").data] :=
  ⟨by rfl, by rfl⟩

/-- C8 amended: with no semantic match, the Topic-summary fallback fires
exactly when the stored overview is empty; it then appends at most 15
entries (title, summary and a 500-character body slice — not title +
summary alone), giving a non-empty context provided at least one Topic
exists or a page context was supplied; with a nonempty overview the
context is the overview entry (plus any page context) and contains no
Topic entries, and is non-empty through the overview alone. -/
theorem c8_retrieval_fallback_amended (overview pageContext : Str)
    (features : List Feature) :
    (overview = [] →
      assembleChatContext overview pageContext [] features =
        (if pageContext ≠ [] then
          [("[Current Page Context]\n").data ++ pageContext] else []) ++
          (features.take 15).map (fun f =>
            ("[Feature: ").data ++ f.title ++ ("]\nSummary: ").data ++
              f.summary ++ ("\n").data ++ f.markdown_content.take 500) ∧
      ((features.take 15).length ≤ 15) ∧
      (features ≠ [] → assembleChatContext overview pageContext [] features ≠ [])) ∧
    (overview ≠ [] →
      assembleChatContext overview pageContext [] features =
        [("[Wiki Overview]\n").data ++ overview.take 2000] ++
          (if pageContext ≠ [] then
            [("[Current Page Context]\n").data ++ pageContext] else [])) := by
  constructor
  · intro hov
    subst hov
    by_cases hpc : pageContext = []
    · subst hpc
      refine ⟨by simp [assembleChatContext], by simp [List.length_take], ?_⟩
      intro hf hc
      simp only [assembleChatContext, ne_eq, not_true_eq_false, if_neg,
        List.map_nil, List.append_nil, List.nil_append] at hc
      rcases List.append_eq_nil.mp hc with ⟨_, h2⟩
      rcases List.map_eq_nil_iff.mp h2 |> List.take_eq_nil_iff.mp with h3 | h3
      · omega
      · exact hf h3
    · refine ⟨by simp [assembleChatContext, hpc], by simp [List.length_take], ?_⟩
      intro _ hc
      simp only [assembleChatContext, ne_eq, hpc, not_false_eq_true, if_pos,
        List.map_nil, List.append_nil, List.nil_append] at hc
      simp at hc
  · intro hov
    by_cases hpc : pageContext = []
    · subst hpc
      simp [assembleChatContext, hov]
    · simp [assembleChatContext, hov, hpc]

/-- C8 witness: the amended theorem at the empty overview, no page
context, and one stored Topic. -/
theorem c8_retrieval_fallback_witness :
    assembleChatContext [] [] [] [c8feature] =
      [("[Feature: ").data ++ ("T").data ++ ("]\nSummary: ").data ++
        ("S").data ++ ("\n").data ++ ("B").data] ∧
      assembleChatContext [] [] [] [c8feature] ≠ [] := by
  have h := c8_retrieval_fallback_amended [] [] [c8feature]
  refine ⟨?_, (h.1 rfl).2.2 (by decide)⟩
  have he := (h.1 rfl).1
  simpa using he

/-- C9 counterexample: the claim says a new run on an existing unit
resets it to pending and deletes its Topics and Passages whatever its
current status; the current upsertWiki returns a wiki whose status is
done unchanged, with no status write and no deletion at all. -/
theorem c9_counterexample_done_wiki :
    upsertWiki ("o").data ("r").data ("main").data (some doneRow) =
      (doneRow, []) ∧
      doneRow.status = WikiStatus.done ∧
      (upsertWiki ("o").data ("r").data ("main").data (some doneRow)).1.status ≠
        WikiStatus.pending :=
  ⟨by rfl, rfl, by decide⟩

/-- C9 amended: starting a new run for an (owner, repo) pair whose
existing unit is in any status other than done resets the unit to pending
and issues the deletion of all its Passages (chunks) and Topics
(features) before any regeneration; a unit already done is returned
unchanged with no writes; with no existing unit a fresh pending one is
inserted. -/
theorem c9_upsert_reset_amended (owner repo branch : Str) (row : WikiRow)
    (h : row.status ≠ WikiStatus.done) :
    (upsertWiki owner repo branch (some row)).1.status = WikiStatus.pending ∧
      (upsertWiki owner repo branch (some row)).2 =
        [DbOp.resetWiki row.id WikiStatus.pending branch,
         DbOp.deleteChunks row.id, DbOp.deleteFeatures row.id] ∧
      (upsertWiki owner repo branch none).2 =
        [DbOp.insertWiki owner repo branch WikiStatus.pending] := by
  refine ⟨?_, ?_, rfl⟩ <;> simp [upsertWiki, h]

/-- C9 witness: the amended theorem at a concrete errored unit. -/
theorem c9_upsert_reset_witness :
    (upsertWiki ("o").data ("r").data ("main").data
        (some ⟨("id1").data, ("o").data, ("r").data, ("old").data, [],
          WikiStatus.error⟩)).1.status = WikiStatus.pending ∧
      (upsertWiki ("o").data ("r").data ("main").data
          (some ⟨("id1").data, ("o").data, ("r").data, ("old").data, [],
            WikiStatus.error⟩)).2 =
        [DbOp.resetWiki ("id1").data WikiStatus.pending ("main").data,
         DbOp.deleteChunks ("id1").data, DbOp.deleteFeatures ("id1").data] ∧
      (upsertWiki ("o").data ("r").data ("main").data none).2 =
        [DbOp.insertWiki ("o").data ("r").data ("main").data
          WikiStatus.pending] :=
  c9_upsert_reset_amended ("o").data ("r").data ("main").data
    ⟨("id1").data, ("o").data, ("r").data, ("old").data, [],
      WikiStatus.error⟩ (by decide)

/-- C3 counterexample: the bodies of the chunks of the one-line file
consisting of a space and the letter x concatenate to the letter alone —
flush trims every logical unit, so the original text is not reconstructed
exactly; and document chunking of entirely empty input still emits the
one summary passage, not zero passages. -/
theorem c3_counterexample_reconstruction :
    codeBodies ("f").data (" x").data = [("x").data] ∧
      (codeBodies ("f").data (" x").data).flatten ≠ (" x").data ∧
      (chunkWikiContent [] [] []).length = 1 :=
  ⟨by rfl, by decide, by rfl⟩

/-- C3 amended: chunking loses exactly the whitespace that trimming
removes, and nothing else.  For code chunking (any boundary table):
input empty after trimming yields zero passages; input with no boundary
line yields exactly one logical unit whose header-stripped bodies
concatenate to the trimmed input — so to the input itself whenever it
carries no leading or trailing whitespace; in general the concatenated
bodies equal the concatenation of the trimmed unit texts.  For document
chunking: the concatenated bodies are the feature summary followed by the
trimmed nonempty sections, the sections themselves concatenating to the
markdown exactly; and at least the summary passage is always emitted,
even for empty input. -/
theorem c3_reconstruction_amended :
    (∀ (isB : Str → Bool) (exS : Str → Option Str) (fp content : Str),
      trimStr content = [] → chunkCodeFileP isB exS fp content = []) ∧
    (∀ (isB : Str → Bool) (exS : Str → Option Str) (fp content : Str),
      (∀ l ∈ splitLines content, isB (trimStr l) = false) →
      trimStr content = content → content ≠ [] →
      (chunkCodeFileUnits isB exS fp content).length = 1 ∧
        (codeBodiesP isB exS fp content).flatten = content) ∧
    (∀ (isB : Str → Bool) (exS : Str → Option Str) (fp content : Str),
      (codeBodiesP isB exS fp content).flatten =
        ((chunkCodeFileUnits isB exS fp content).map (·.raw)).flatten) ∧
    (∀ t s md, (wikiBodies t s md).flatten =
        s ++ ((splitSections md).map trimStr).flatten ∧
      (splitSections md).flatten = md) ∧
    (∀ t s md, chunkWikiContent t s md ≠ []) := by
  refine ⟨?_, ?_, ?_, ?_, ?_⟩
  · intro isB exS fp content h
    unfold chunkCodeFileP
    rw [chunkCodeFileUnits_empty isB exS fp content h]
    rfl
  · intro isB exS fp content hnb htr hne
    have hu := chunkCodeFileUnits_no_boundary isB exS fp content hnb
      (by rw [htr]; exact hne)
    refine ⟨by rw [hu]; rfl, ?_⟩
    unfold codeBodiesP
    rw [hu]
    simp only [List.flatMap_cons, List.flatMap_nil, List.append_nil]
    rw [splitByTokenLimit_join, htr]
  · intro isB exS fp content
    exact codeBodiesP_flatten isB exS fp content
  · intro t s md
    exact ⟨wikiBodies_flatten t s md, splitSections_flatten md⟩
  · intro t s md
    unfold chunkWikiContent
    intro hc
    rcases List.append_eq_nil.mp hc with ⟨h1, _⟩
    exact splitByTokenLimit_ne_nil _ _ (List.map_eq_nil_iff.mp h1)

/-- C3 witness: the amended no-boundary clause at a concrete trimmed
three-character file. -/
theorem c3_reconstruction_witness :
    (chunkCodeFileUnits jsIsBoundaryLine jsExtractSymbolName ("f").data
        ("abc").data).length = 1 ∧
      (codeBodiesP jsIsBoundaryLine jsExtractSymbolName ("f").data
          ("abc").data).flatten = ("abc").data :=
  c3_reconstruction_amended.2.1 jsIsBoundaryLine jsExtractSymbolName
    ("f").data ("abc").data (by decide) (by decide) (by decide)

/-- C4: with the context gather, the overview call and the chunk
persistence succeeding, a run over five identified topics of which
exactly one fails its fetch + page-generation + insert step persists
exactly four Topic records (the failed topic persists none), emits
exactly one feature_done event carrying the partial marker, returns the
wiki id normally, and its last persisted status is done — one failing
topic never aborts the run. -/
theorem c4_partial_failure_isolation (wikiId overview : Str)
    (identified : List IdentifiedFeature)
    (gen : IdentifiedFeature → Nat → Option Feature)
    (h5 : identified.length = 5)
    (h1 : identified.enum.countP (fun p => (gen p.2 p.1).isNone) = 1)
    (hclean : ∀ f ∈ identified,
      (" (partial)").data.isSuffixOf f.title = false) :
    (runAnalysisPipeline wikiId (Except.ok ()) (Except.ok identified) gen
        (Except.ok overview) (Except.ok ())).persistedFeatures.length = 4 ∧
      countPartial (runAnalysisPipeline wikiId (Except.ok ())
        (Except.ok identified) gen (Except.ok overview)
        (Except.ok ())).events = 1 ∧
      (runAnalysisPipeline wikiId (Except.ok ()) (Except.ok identified) gen
        (Except.ok overview) (Except.ok ())).result = Except.ok wikiId ∧
      (runAnalysisPipeline wikiId (Except.ok ()) (Except.ok identified) gen
        (Except.ok overview) (Except.ok ())).statuses.getLast? =
        some WikiStatus.done := by
  have hne : identified ≠ [] := by
    intro h
    rw [h] at h5
    simp at h5
  have hie : identified.isEmpty = false := isEmpty_false_of_ne_nil hne
  have hcap : identified.take MAX_FEATURES = identified :=
    List.take_of_length_le (by rw [h5]; decide)
  have hsome : identified.enum.countP (fun p => (gen p.2 p.1).isSome) = 4 := by
    have := countP_isSome_add_isNone gen identified.enum
    rw [h1, List.enum_length, h5] at this
    omega
  simp only [runAnalysisPipeline, hie, Bool.false_eq_true, if_false, hcap]
  refine ⟨?_, ?_, by simp, by simp⟩
  · simpa [generateAllPages_features_length] using hsome
  · simp only [countPartial, List.countP_append]
    have hclean2 := generateAllPages_partial_count gen identified hclean
    rw [h1] at hclean2
    unfold countPartial at hclean2
    simp [isPartialDone, List.countP_cons, hclean2]

/-- C4 witness: five concrete topics where only the third one's step
fails. -/
theorem c4_partial_failure_witness :
    (runAnalysisPipeline ("w").data (Except.ok ())
        (Except.ok ((List.range 5).map fun i =>
          (⟨[], [Char.ofNat (65 + i)], [], []⟩ : IdentifiedFeature)))
        (fun _ o => if o = 2 then none else
          some ⟨("w").data, [], [], [], [], o⟩)
        (Except.ok ("ov").data) (Except.ok ())).persistedFeatures.length = 4 :=
  (c4_partial_failure_isolation ("w").data ("ov").data _ _ (by rfl)
    (by decide) (by decide)).1

/-- C5 counterexample: the run over a repository in which no topics are
identified fails fatally with the corresponding error, yet its persisted
status trail is pending then identifying_features — the declared terminal
error status is never written by any code path. -/
theorem c5_counterexample_no_error_status :
    (runAnalysisPipeline ("w").data (Except.ok ())
        (Except.ok ([] : List IdentifiedFeature)) (fun _ _ => none)
        (Except.ok ([] : Str)) (Except.ok ())).result =
      Except.error (("No features identified in repository").data) ∧
      (runAnalysisPipeline ("w").data (Except.ok ())
        (Except.ok ([] : List IdentifiedFeature)) (fun _ _ => none)
        (Except.ok ([] : Str)) (Except.ok ())).statuses =
        [WikiStatus.pending, WikiStatus.identifyingFeatures] ∧
      WikiStatus.error ∉ (runAnalysisPipeline ("w").data (Except.ok ())
        (Except.ok ([] : List IdentifiedFeature)) (fun _ _ => none)
        (Except.ok ([] : Str)) (Except.ok ())).statuses :=
  ⟨by rfl, by rfl, by decide⟩

/-- C5 amended: whenever a run fails fatally (context gather failure,
identification failure or zero topics, overview failure, or chunk
persistence failure), exactly one terminal error progress event is
emitted, it is the last event, it carries the thrown error message, and
the error is rethrown to the caller; the persisted status however stays
at the last phase status written before the failure — the pipeline never
persists the declared error status. -/
theorem c5_fatal_failure_amended (wikiId m : Str) (gather : Except Str Unit)
    (identify : Except Str (List IdentifiedFeature))
    (gen : IdentifiedFeature → Nat → Option Feature)
    (overviewRes : Except Str Str) (persistChunks : Except Str Unit)
    (hres : (runAnalysisPipeline wikiId gather identify gen overviewRes
      persistChunks).result = Except.error m) :
    WikiStatus.error ∉ (runAnalysisPipeline wikiId gather identify gen
        overviewRes persistChunks).statuses ∧
      (runAnalysisPipeline wikiId gather identify gen overviewRes
        persistChunks).events.countP AnalysisEvent.isError = 1 ∧
      (runAnalysisPipeline wikiId gather identify gen overviewRes
        persistChunks).events.getLast? = some (AnalysisEvent.error m) := by
  have hpg : ∀ fs, (generateAllPages gen fs).2.countP AnalysisEvent.isError = 0 :=
    fun fs => List.countP_eq_zero.mpr (by
      intro e he
      simp [generateAllPages_events_not_error gen fs e he])
  rcases gather with mg | u
  · simp only [runAnalysisPipeline] at hres ⊢
    injection hres with h
    subst h
    refine ⟨by simp, by simp [AnalysisEvent.isError], by simp⟩
  · rcases identify with mi | identified
    · simp only [runAnalysisPipeline] at hres ⊢
      injection hres with h
      subst h
      refine ⟨by decide, by simp [AnalysisEvent.isError], by simp⟩
    · by_cases hie : identified.isEmpty
      · simp only [runAnalysisPipeline, hie, if_true] at hres ⊢
        injection hres with h
        subst h
        refine ⟨by decide, by simp [AnalysisEvent.isError], by simp⟩
      · rw [Bool.not_eq_true] at hie
        rcases overviewRes with mo | ov
        · simp only [runAnalysisPipeline, hie, Bool.false_eq_true, if_false]
            at hres ⊢
          injection hres with h
          subst h
          refine ⟨by decide, ?_, by simp [getLast?_append_right, getLast?_cons_append]⟩
          simp [AnalysisEvent.isError, List.countP_append, List.countP_cons,
            hpg]
        · rcases persistChunks with mp | up
          · simp only [runAnalysisPipeline, hie, Bool.false_eq_true, if_false]
              at hres ⊢
            injection hres with h
            subst h
            refine ⟨by decide, ?_, by simp [getLast?_append_right, getLast?_cons_append]⟩
            simp [AnalysisEvent.isError, List.countP_append, List.countP_cons,
              hpg]
          · simp only [runAnalysisPipeline, hie, Bool.false_eq_true, if_false]
              at hres
            exact absurd hres (by simp)

/-- C5 witness: the amended theorem at a concrete run whose overview
synthesis call throws. -/
theorem c5_fatal_failure_witness :
    WikiStatus.error ∉ (runAnalysisPipeline ("w").data (Except.ok ())
        (Except.ok [(⟨[], ("T").data, [], []⟩ : IdentifiedFeature)])
        (fun f o => some ⟨("w").data, [], f.title, [], [], o⟩)
        (Except.error ("boom").data) (Except.ok ())).statuses ∧
      (runAnalysisPipeline ("w").data (Except.ok ())
        (Except.ok [(⟨[], ("T").data, [], []⟩ : IdentifiedFeature)])
        (fun f o => some ⟨("w").data, [], f.title, [], [], o⟩)
        (Except.error ("boom").data) (Except.ok ())).events.countP
        AnalysisEvent.isError = 1 ∧
      (runAnalysisPipeline ("w").data (Except.ok ())
        (Except.ok [(⟨[], ("T").data, [], []⟩ : IdentifiedFeature)])
        (fun f o => some ⟨("w").data, [], f.title, [], [], o⟩)
        (Except.error ("boom").data) (Except.ok ())).events.getLast? =
        some (AnalysisEvent.error ("boom").data) :=
  c5_fatal_failure_amended ("w").data ("boom").data (Except.ok ())
    (Except.ok [(⟨[], ("T").data, [], []⟩ : IdentifiedFeature)])
    (fun f o => some ⟨("w").data, [], f.title, [], [], o⟩)
    (Except.error ("boom").data) (Except.ok ()) (by rfl)

/-- C6: with the provider contract that a successful embedding call
returns one vector per batch text (E giving the vector of a text), the
batcher returns, for every batch, either that batch's vectors in order or
the empty list (a batch whose four attempts all fail degrades to empty,
never to a partial or misaligned list); and when every batch succeeds
within its retries the output is exactly one vector per input text, in
input order. -/
theorem c6_embedding_count_invariant {γ : Type}
    (attempt : Nat → List Str → Option (List γ)) (E : Str → γ)
    (texts : List Str)
    (halign : ∀ k (b : List Str) vs, b ∈ toBatches BATCH_SIZE texts →
      attempt k b = some vs → vs = b.map E) :
    (∀ b ∈ toBatches BATCH_SIZE texts,
      (retryEmbed attempt b).getD [] = [] ∨
        (retryEmbed attempt b).getD [] = b.map E) ∧
    ((∀ b ∈ toBatches BATCH_SIZE texts, (retryEmbed attempt b).isSome = true) →
      generateEmbeddings attempt texts = texts.map E ∧
        (generateEmbeddings attempt texts).length = texts.length) := by
  constructor
  · intro b hb
    cases hr : retryEmbed attempt b with
    | none => exact Or.inl rfl
    | some v =>
      obtain ⟨k, _, hk⟩ := retryEmbed_eq_some attempt b v hr
      exact Or.inr (by simp [halign k b v hb hk])
  · intro hall
    have hfull : ∀ b ∈ toBatches BATCH_SIZE texts,
        retryEmbed attempt b = some (b.map E) := by
      intro b hb
      cases hr : retryEmbed attempt b with
      | none =>
        have := hall b hb
        rw [hr] at this
        simp at this
      | some v =>
        obtain ⟨k, _, hk⟩ := retryEmbed_eq_some attempt b v hr
        rw [halign k b v hb hk]
    have heq := generateEmbeddings_all_success attempt E texts hfull
    exact ⟨heq, by rw [heq]; simp⟩

/-- C6 witness: two texts, an embedding call that succeeds immediately
with one vector per text. -/
theorem c6_embedding_count_witness :
    generateEmbeddings (fun _ b => some (b.map fun s => s))
        [("a").data, ("b").data] =
      ([("a").data, ("b").data]).map (fun s => s) ∧
      (generateEmbeddings (fun _ b => some (b.map fun s => s))
        [("a").data, ("b").data]).length = 2 :=
  (c6_embedding_count_invariant (fun _ b => some (b.map fun s => s))
    (fun s => s) [("a").data, ("b").data]
    (fun k b vs _ h => by injection h with h; exact h.symm)).2
    (fun b _ => rfl)

/-- C10: a run whose identification call returns any nonempty topic list
passes exactly the first MAX_FEATURES = 10 of them, in order, to page
generation (the features_list event carries their titles), its persisted
Topic records are those generated from that capped list, and at most 10
Topic records are ever persisted in one run, whatever the outcomes of the
later phases. -/
theorem c10_feature_cap (wikiId : Str)
    (identified : List IdentifiedFeature)
    (gen : IdentifiedFeature → Nat → Option Feature)
    (overviewRes : Except Str Str) (persistChunks : Except Str Unit)
    (hne : identified ≠ []) :
    AnalysisEvent.featuresList
        ((identified.take MAX_FEATURES).map (·.title)) ∈
      (runAnalysisPipeline wikiId (Except.ok ()) (Except.ok identified) gen
        overviewRes persistChunks).events ∧
      (runAnalysisPipeline wikiId (Except.ok ()) (Except.ok identified) gen
        overviewRes persistChunks).persistedFeatures =
        (generateAllPages gen (identified.take MAX_FEATURES)).1 ∧
      (runAnalysisPipeline wikiId (Except.ok ()) (Except.ok identified) gen
        overviewRes persistChunks).persistedFeatures.length ≤ MAX_FEATURES := by
  have hie : identified.isEmpty = false := isEmpty_false_of_ne_nil hne
  have hlen : (generateAllPages gen (identified.take MAX_FEATURES)).1.length ≤
      MAX_FEATURES :=
    le_trans (generateAllPages_length_le gen _) (by simp [List.length_take])
  rcases overviewRes with mo | ov <;> rcases persistChunks with mp | up <;>
    · simp only [runAnalysisPipeline, hie, Bool.false_eq_true, if_false]
      exact ⟨by simp, by trivial, hlen⟩

/-- C10 witness: eleven identified topics, all of whose steps succeed;
the capped list carries the first ten titles. -/
theorem c10_feature_cap_witness :
    (runAnalysisPipeline ("w").data (Except.ok ())
        (Except.ok ((List.range 11).map fun i =>
          (⟨[], [Char.ofNat (65 + i)], [], []⟩ : IdentifiedFeature)))
        (fun f o => some ⟨("w").data, [], f.title, [], [], o⟩)
        (Except.ok ("ov").data) (Except.ok ())).persistedFeatures.length ≤
      MAX_FEATURES :=
  (c10_feature_cap ("w").data _ _ (Except.ok ("ov").data) (Except.ok ())
    (by decide)).2.2

end Wikicube
